import Mathlib

/-!
Verification of the pdfsummarizer repository.

Python strings are embedded as `List Char` (one element per code point, so
Python `len` is `List.length`).  The tiktoken encoder and the hosted LLM are
external libraries: they are modelled as abstract parameters (`encode` on
`PDFProcessor`; `mkChain` / `runChain` / `runMeta` on `PDFSummarizer`, each
returning `Except` to model a Python call that may raise).  Everything else is
translated directly from `src/pdf_processor.py` and `src/summarizer.py`.
-/

/-- A Python string: one `Char` per code point. -/
abbrev Text := List Char

/-- Python whitespace as used by `str.split()` / `str.strip()` (ASCII part:
space, tab, newline, carriage return, vertical tab, form feed). -/
def pyWS (c : Char) : Bool :=
  c == ' ' || c == '\t' || c == '\n' || c == '\r' || c == Char.ofNat 11 || c == Char.ofNat 12

/-- Python `str.lstrip()`. -/
def lstrip (t : Text) : Text := t.dropWhile pyWS

/-- Python `str.rstrip()`. -/
def rstrip (t : Text) : Text := (t.reverse.dropWhile pyWS).reverse

/-- Python `str.strip()`. -/
def strip (t : Text) : Text := rstrip (lstrip t)

/-- Python `text.split('. ')`: split at each non-overlapping, leftmost-first
occurrence of the two-character separator `". "`.  On the empty string Python
returns `['']`, i.e. `[[]]` here. -/
def splitSent : Text → List Text
  | [] => [[]]
  | [c] => [[c]]
  | c1 :: c2 :: rest =>
    if c1 == '.' && c2 == ' ' then
      [] :: splitSent rest
    else
      match splitSent (c2 :: rest) with
      | [] => [[c1]]
      | t :: ts => (c1 :: t) :: ts

/-- Python `'. '.join(pieces)`. -/
def joinPS : List Text → Text
  | [] => []
  | [t] => t
  | t :: t2 :: ts => t ++ ['.', ' '] ++ joinPS (t2 :: ts)

/-- `sentTail [s1, ..., sn] = ". s1. s2...": the part of `'. '.join` after the
first piece. -/
def sentTail : List Text → Text
  | [] => []
  | s :: ss => ['.', ' '] ++ s ++ sentTail ss

/-- Python `' '.join(pieces)`. -/
def joinSpace : List Text → Text
  | [] => []
  | [t] => t
  | t :: t2 :: ts => t ++ [' '] ++ joinSpace (t2 :: ts)

/-- Python `'\n\n'.join(pieces)`. -/
def joinNN : List Text → Text
  | [] => []
  | [t] => t
  | t :: t2 :: ts => t ++ ['\n', '\n'] ++ joinNN (t2 :: ts)

/-- `PDFProcessor` (src/pdf_processor.py).  The tiktoken `cl100k_base`
encoding obtained in `__init__` is an external library; it is modelled as an
abstract encoding function from text to a token list. -/
structure PDFProcessor where
  encode : Text → List Nat

/-- `PDFProcessor.count_tokens` (src/pdf_processor.py:88-100):
`len(self.encoding.encode(text))`. -/
def PDFProcessor.count_tokens (p : PDFProcessor) (text : Text) : Nat :=
  (p.encode text).length

/-- One iteration of the `for sentence in sentences` loop of
`PDFProcessor.chunk_text` (src/pdf_processor.py:120-131).  State is
`(chunks, current_chunk)`. -/
def chunkStep (p : PDFProcessor) (max_tokens : Nat)
    (st : List Text × Text) (sentence : Text) : List Text × Text :=
  let test_chunk := st.2 ++ sentence ++ ['.', ' ']
  if max_tokens < p.count_tokens test_chunk ∧ st.2 ≠ [] then
    (st.1 ++ [strip st.2], sentence ++ ['.', ' '])
  else
    (st.1, test_chunk)

/-- `PDFProcessor.chunk_text` (src/pdf_processor.py:102-137): split on
`'. '`, greedily accumulate sentences into `current_chunk`, close the chunk
when the tentative extension exceeds `max_tokens` and the current chunk is
non-empty, and append the final `current_chunk.strip()` if non-empty. -/
def PDFProcessor.chunk_text (p : PDFProcessor) (text : Text) (max_tokens : Nat) :
    List Text :=
  let sentences := splitSent text
  let r := sentences.foldl (chunkStep p max_tokens) ([], [])
  if strip r.2 = [] then r.1 else r.1 ++ [strip r.2]

/-- Recursive presentation of the `chunk_text` loop: emits each closed chunk
in order instead of accumulating them; proved equal to the fold below. -/
def chunkLoop (p : PDFProcessor) (max_tokens : Nat) : Text → List Text → List Text
  | current, [] => if strip current = [] then [] else [strip current]
  | current, s :: rest =>
    let test := current ++ s ++ ['.', ' ']
    if max_tokens < p.count_tokens test ∧ current ≠ [] then
      strip current :: chunkLoop p max_tokens (s ++ ['.', ' ']) rest
    else
      chunkLoop p max_tokens test rest

/-- The page marker `f"\n--- Page \x7bn\x7d ---\n"` prepended to each page's
text in `extract_text_from_pdf` (src/pdf_processor.py:45). -/
def pageHeader (n : Nat) : Text :=
  "\n--- Page ".toList ++ (Nat.repr n).toList ++ " ---\n".toList

/-- The page loop of `extract_text_from_pdf` (src/pdf_processor.py:40-49):
`enumerate(pdf_reader.pages)` with a per-page `try`; a page whose
`extract_text()` raises (modelled `Except.error`) is skipped, a page that
succeeds contributes its marker plus its text. -/
def extractLoop : Nat → List (Except Text Text) → Text
  | _, [] => []
  | n, Except.ok page_text :: rest => pageHeader (n + 1) ++ page_text ++ extractLoop (n + 1) rest
  | n, Except.error _ :: rest => extractLoop (n + 1) rest

/-- `PDFProcessor.extract_text_from_pdf` (src/pdf_processor.py:24-54).  The
external `PyPDF2.PdfReader` is modelled by the argument: either the document
fails to open (`Except.error`), which is re-raised wrapped in
`"Error reading PDF: "`, or it yields a list of pages, each of which either
yields text or raises on `extract_text()`. -/
def PDFProcessor.extract_text_from_pdf
    (doc : Except Text (List (Except Text Text))) : Except Text Text :=
  match doc with
  | Except.ok pages => Except.ok (extractLoop 0 pages)
  | Except.error e => Except.error ("Error reading PDF: ".toList ++ e)

/-- Cleanliness check: `clean_text` (src/pdf_processor.py:56-86) ends with
`' '.join(text.split())` followed by `strip()`, so its output contains no
whitespace other than single spaces and neither starts nor ends with a
space.  `cleanedB` is that characterization. -/
def allWSisSpace (t : Text) : Bool := t.all fun c => !pyWS c || c == ' '

/-- No two consecutive spaces. -/
def noDoubleSpace : Text → Bool
  | [] => true
  | [_] => true
  | c1 :: c2 :: rest => !(c1 == ' ' && c2 == ' ') && noDoubleSpace (c2 :: rest)

/-- The first character, if any, is not a space. -/
def headNotSpaceB : Text → Bool
  | [] => true
  | c :: _ => !(c == ' ')

/-- The first character, if any, is not whitespace. -/
def headNotWS : Text → Bool
  | [] => true
  | c :: _ => !pyWS c

/-- `t` is a possible output of `clean_text`: only space whitespace, no run of
two spaces, and no leading or trailing space. -/
def cleanedB (t : Text) : Bool :=
  allWSisSpace t && noDoubleSpace t && headNotSpaceB t && headNotSpaceB t.reverse

/-! ## Summarizer (src/summarizer.py) -/

/-- The keys of `self.summary_prompts` (src/summarizer.py:19-68). -/
def validSummaryTypes : List String := ["brief", "detailed", "bullet_points", "executive"]

/-- The selector actually used by `summarize_text` after the fallback
(src/summarizer.py:71-72). -/
def effectiveType (summary_type : String) : String :=
  if summary_type ∈ validSummaryTypes then summary_type else "detailed"

/-- Per-chunk summary record built by `summarize_chunks`
(src/summarizer.py:93-98 and 102-107). -/
structure ChunkSummary where
  chunk_number : Nat
  summary : Text
  original_length : Nat
  summary_length : Nat
deriving DecidableEq, Repr

/-- Aggregate result of `summarize_chunks` (src/summarizer.py:111-116). -/
structure SummaryResult where
  individual_summaries : List ChunkSummary
  combined_summary : Text
  total_chunks : Nat
  summary_type : String
deriving DecidableEq, Repr

/-- `PDFSummarizer` (src/summarizer.py).  The langchain/Gemini client is an
external dependency, modelled by three abstract effectful calls, each of which
may raise (`Except.error` carries `str(e)`):
`mkChain st` is the `LLMChain(llm=..., prompt=self.summary_prompts[st])`
construction in `summarize_text` (outside its `try`), `runChain st text` is
`chain.run(text=text)` (inside its `try`), and `runMeta summaries st` is
`meta_chain.run(summaries=..., summary_type=...)` in `combine_summaries`. -/
structure PDFSummarizer where
  mkChain : String → Except Text Unit
  runChain : String → Text → Except Text Text
  runMeta : Text → String → Except Text Text

/-- `needle` is a prefix of `hay` (helper for Python's `in` on strings). -/
def listStartsWith : Text → Text → Bool
  | [], _ => true
  | _ :: _, [] => false
  | n :: ns, h :: hs => n == h && listStartsWith ns hs

/-- Python's `needle in hay` on strings: some suffix of `hay` starts with
`needle`. -/
def containsSub (needle : Text) : Text → Bool
  | [] => listStartsWith needle []
  | c :: rest => listStartsWith needle (c :: rest) || containsSub needle rest

/-- The token searched for by `'Error' not in cs['summary']`
(src/summarizer.py:119). -/
def errTok : Text := "Error".toList

/-- `PDFSummarizer.summarize_text` (src/summarizer.py:70-83).  Falls back to
`'detailed'` for unknown selectors, builds the chain (whose construction may
raise, propagating out), runs it, and converts a raised run error into the
inline string `"Error generating summary: " + str(e)`. -/
def PDFSummarizer.summarize_text (S : PDFSummarizer) (text : Text)
    (summary_type : String) : Except Text Text :=
  let st := effectiveType summary_type
  match S.mkChain st with
  | Except.error e => Except.error e
  | Except.ok _ =>
    match S.runChain st text with
    | Except.ok summary => Except.ok summary
    | Except.error e => Except.ok ("Error generating summary: ".toList ++ e)

/-- The `for i, chunk in enumerate(chunks)` loop of `summarize_chunks`
(src/summarizer.py:89-107), with its `try`/`except`: a `summarize_text` call
that raises is converted into an error-flagged record with
`summary = "Error processing chunk: " + str(e)` and `summary_length = 0`. -/
def summarizeLoop (S : PDFSummarizer) (summary_type : String) :
    Nat → List Text → List ChunkSummary
  | _, [] => []
  | i, chunk :: rest =>
    (match S.summarize_text chunk summary_type with
     | Except.ok summary =>
       ⟨i + 1, summary, chunk.length, summary.length⟩
     | Except.error e =>
       ⟨i + 1, "Error processing chunk: ".toList ++ e, chunk.length, 0⟩)
    :: summarizeLoop S summary_type (i + 1) rest

/-- The successful summaries kept by `combine_summaries`
(src/summarizer.py:119): `[cs['summary'] for cs in chunk_summaries if 'Error'
not in cs['summary']]`. -/
def successfulSummaries (chunk_summaries : List ChunkSummary) : List Text :=
  ((chunk_summaries.filter fun cs => !(containsSub errTok cs.summary)).map
    fun cs => cs.summary)

/-- The numbered-section concatenation of `combine_summaries`
(src/summarizer.py:123): `'\n\n'.join(f"Section \x7bi+1\x7d: \x7bs\x7d" ...)`. -/
def sectionJoinAux : Nat → List Text → List Text
  | _, [] => []
  | i, s :: rest =>
    ("Section ".toList ++ (Nat.repr (i + 1)).toList ++ ": ".toList ++ s)
      :: sectionJoinAux (i + 1) rest

/-- `combined_text` of `combine_summaries` (src/summarizer.py:123). -/
def sectionJoin (summaries : List Text) : Text :=
  joinNN (sectionJoinAux 0 summaries)

/-- `PDFSummarizer.combine_summaries` (src/summarizer.py:118-145). -/
def PDFSummarizer.combine_summaries (S : PDFSummarizer)
    (chunk_summaries : List ChunkSummary) (summary_type : String) : Text :=
  let individual_summaries := successfulSummaries chunk_summaries
  if individual_summaries = [] then
    "No valid summaries were generated.".toList
  else
    let combined_text := sectionJoin individual_summaries
    match S.runMeta combined_text summary_type with
    | Except.ok final_summary => final_summary
    | Except.error _ => "Combined Summary:\n\n".toList ++ combined_text

/-- `PDFSummarizer.summarize_chunks` (src/summarizer.py:85-116). -/
def PDFSummarizer.summarize_chunks (S : PDFSummarizer) (chunks : List Text)
    (summary_type : String) : SummaryResult :=
  let chunk_summaries := summarizeLoop S summary_type 0 chunks
  { individual_summaries := chunk_summaries
    combined_summary := S.combine_summaries chunk_summaries summary_type
    total_chunks := chunks.length
    summary_type := summary_type }

/-- Default record used with `List.getD` when stating facts about the i-th
entry of `individual_summaries`. -/
def dfltCS : ChunkSummary := ⟨0, [], 0, 0⟩

/-! ## Concrete instances used by witnesses and counterexamples -/

/-- A concrete, executable token counter: one token per character. -/
def p0 : PDFProcessor := ⟨fun t => t.map Char.toNat⟩

/-- The text `"Hello"`. -/
def helloT : Text := "Hello".toList

/-- The text `"Hello world"`. -/
def helloWorldT : Text := "Hello world".toList

/-! ## Lemmas about strip, splitSent and joins -/

theorem pyWS_space : pyWS ' ' = true := by decide

theorem pyWS_dot : pyWS '.' = false := by decide

theorem rstrip_append_ps (v : Text) : rstrip (v ++ ['.', ' ']) = v ++ ['.'] := by
  simp [rstrip, List.dropWhile_cons, pyWS_space, pyWS_dot]

theorem lstrip_of_headNotWS (t : Text) (h : headNotWS t = true) : lstrip t = t := by
  cases t with
  | nil => rfl
  | cons c cs =>
    simp only [headNotWS, Bool.not_eq_true'] at h
    simp [lstrip, List.dropWhile_cons, h]

theorem lstrip_append_ps (w : Text) : ∃ w1, lstrip (w ++ ['.', ' ']) = w1 ++ ['.', ' '] := by
  induction w with
  | nil => exact ⟨[], by simp [lstrip, List.dropWhile_cons, pyWS_dot]⟩
  | cons c cs ih =>
    by_cases h : pyWS c = true
    · obtain ⟨w1, hw1⟩ := ih
      exact ⟨w1, by simp [lstrip, List.dropWhile_cons, h] at hw1 ⊢; exact hw1⟩
    · exact ⟨c :: cs, by
        simp only [Bool.not_eq_true] at h
        simp [lstrip, List.dropWhile_cons, h]⟩

theorem headNotWS_append_ps (s : Text) (h : headNotWS s = true) :
    headNotWS (s ++ ['.', ' ']) = true := by
  cases s with
  | nil => decide
  | cons c cs => simpa [headNotWS] using h

theorem headNotWS_append (t u : Text) (hne : t ≠ []) (h : headNotWS t = true) :
    headNotWS (t ++ u) = true := by
  cases t with
  | nil => exact absurd rfl hne
  | cons c cs => simpa [headNotWS] using h

theorem strip_ps (v : Text) (h : headNotWS (v ++ ['.', ' ']) = true) :
    strip (v ++ ['.', ' ']) = v ++ ['.'] := by
  rw [strip, lstrip_of_headNotWS _ h, rstrip_append_ps]

theorem strip_ps_shape (w : Text) : ∃ w1, strip (w ++ ['.', ' ']) = w1 ++ ['.'] := by
  obtain ⟨w1, hw1⟩ := lstrip_append_ps w
  exact ⟨w1, by rw [strip, hw1, rstrip_append_ps]⟩

theorem splitSent_ne_nil (t : Text) : splitSent t ≠ [] := by
  induction t using splitSent.induct with
  | case1 => simp [splitSent]
  | case2 c => simp [splitSent]
  | case3 c1 c2 rest h ih => simp [splitSent, h]
  | case4 c1 c2 rest h hnil ih => exact absurd hnil ih
  | case5 c1 c2 rest h t ts hts ih => simp [splitSent, h, hts]

theorem joinPS_cons (s : Text) (ss : List Text) : joinPS (s :: ss) = s ++ sentTail ss := by
  induction ss generalizing s with
  | nil => simp [joinPS, sentTail]
  | cons s2 ss2 ih => simp [joinPS, sentTail, ih s2]

theorem joinPS_splitSent (t : Text) : joinPS (splitSent t) = t := by
  induction t using splitSent.induct with
  | case1 => rfl
  | case2 c => rfl
  | case3 c1 c2 rest h ih =>
    have hc1 : c1 = '.' := by
      have hb := (Bool.and_eq_true _ _).mp h
      exact eq_of_beq hb.1
    have hc2 : c2 = ' ' := by
      have hb := (Bool.and_eq_true _ _).mp h
      exact eq_of_beq hb.2
    obtain ⟨p, ps, hps⟩ : ∃ p ps, splitSent rest = p :: ps := by
      cases hsp : splitSent rest with
      | nil => exact absurd hsp (splitSent_ne_nil rest)
      | cons p ps => exact ⟨p, ps, rfl⟩
    simp only [splitSent, h, if_true, hps] at ih ⊢
    rw [joinPS, hc1, hc2]
    simp [ih]
  | case4 c1 c2 rest h hnil ih => exact absurd hnil (splitSent_ne_nil _)
  | case5 c1 c2 rest h tp ts hts ih =>
    have hgoal : splitSent (c1 :: c2 :: rest) = (c1 :: tp) :: ts := by
      simp [splitSent, h, hts]
    rw [hgoal]
    rw [hts] at ih
    cases ts with
    | nil =>
      rw [joinPS] at ih ⊢
      rw [ih]
    | cons t2 ts2 =>
      rw [joinPS] at ih ⊢
      simp only [List.cons_append, List.append_assoc] at ih ⊢
      rw [ih]

theorem splitSent_head_shape (c : Char) (rest : Text) :
    (∃ ts, splitSent (c :: rest) = [] :: ts) ∨
    ∃ tl ts, splitSent (c :: rest) = (c :: tl) :: ts := by
  cases rest with
  | nil => exact Or.inr ⟨[], [], rfl⟩
  | cons c2 r =>
    by_cases h : (c == '.' && c2 == ' ') = true
    · exact Or.inl ⟨splitSent r, by simp [splitSent, h]⟩
    · obtain ⟨p, ps, hps⟩ : ∃ p ps, splitSent (c2 :: r) = p :: ps := by
        cases hsp : splitSent (c2 :: r) with
        | nil => exact absurd hsp (splitSent_ne_nil _)
        | cons p ps => exact ⟨p, ps, rfl⟩
      exact Or.inr ⟨p, ps, by simp [splitSent, h, hps]⟩

theorem allWSisSpace_tail (c : Char) (t : Text) (h : allWSisSpace (c :: t) = true) :
    allWSisSpace t = true := by
  simp only [allWSisSpace, List.all_cons, Bool.and_eq_true] at h
  exact h.2

theorem noDoubleSpace_tail (c : Char) (t : Text) (h : noDoubleSpace (c :: t) = true) :
    noDoubleSpace t = true := by
  cases t with
  | nil => rfl
  | cons c2 r =>
    simp only [noDoubleSpace, Bool.and_eq_true] at h
    exact h.2

theorem noDoubleSpace_space_head (t : Text) (h : noDoubleSpace (' ' :: t) = true) :
    headNotSpaceB t = true := by
  cases t with
  | nil => rfl
  | cons c2 r =>
    simp only [noDoubleSpace, Bool.and_eq_true, Bool.not_eq_true'] at h
    have h1 := h.1
    simp only [headNotSpaceB, Bool.not_eq_true']
    simpa using h1

theorem headNotWS_of_clean (c : Char) (t : Text)
    (hall : allWSisSpace (c :: t) = true) (hns : headNotSpaceB (c :: t) = true) :
    headNotWS (c :: t) = true := by
  simp only [allWSisSpace, List.all_cons, Bool.and_eq_true, Bool.or_eq_true,
    Bool.not_eq_true'] at hall
  simp only [headNotSpaceB, Bool.not_eq_true'] at hns
  simp only [headNotWS, Bool.not_eq_true']
  rcases hall.1 with h | h
  · exact h
  · rw [eq_of_beq h] at hns
    simp at hns

theorem splitSent_tail_headNotWS (t : Text) :
    allWSisSpace t = true → noDoubleSpace t = true →
    ∀ s ∈ (splitSent t).tail, headNotWS s = true := by
  induction t using splitSent.induct with
  | case1 => intro _ _ s hs; simp [splitSent] at hs
  | case2 c => intro _ _ s hs; simp [splitSent] at hs
  | case3 c1 c2 rest h ih =>
    intro hall hnd s hs
    have hc2 : c2 = ' ' := eq_of_beq ((Bool.and_eq_true _ _).mp h).2
    subst hc2
    have hall' : allWSisSpace rest = true :=
      allWSisSpace_tail _ _ (allWSisSpace_tail _ _ hall)
    have hnd1 : noDoubleSpace (' ' :: rest) = true := noDoubleSpace_tail _ _ hnd
    have hnd' : noDoubleSpace rest = true := noDoubleSpace_tail _ _ hnd1
    have hhead : headNotSpaceB rest = true := noDoubleSpace_space_head _ hnd1
    simp only [splitSent, h, if_true, List.tail_cons] at hs
    cases rest with
    | nil =>
      simp [splitSent] at hs
      subst hs; rfl
    | cons c3 r3 =>
      obtain ⟨p, ps, hps⟩ : ∃ p ps, splitSent (c3 :: r3) = p :: ps := by
        cases hsp : splitSent (c3 :: r3) with
        | nil => exact absurd hsp (splitSent_ne_nil _)
        | cons p ps => exact ⟨p, ps, rfl⟩
      rw [hps] at hs
      rcases List.mem_cons.mp hs with rfl | hmem
      · rcases splitSent_head_shape c3 r3 with ⟨ts, hts⟩ | ⟨tl, ts, hts⟩
        · rw [hts] at hps
          cases hps; rfl
        · rw [hts] at hps
          injection hps with hp hps'
          subst hp
          have := headNotWS_of_clean c3 r3 hall' hhead
          simpa [headNotWS] using this
      · have := ih hall' hnd' s
        rw [hps] at this
        exact this hmem
  | case4 c1 c2 rest h hnil ih => exact absurd hnil (splitSent_ne_nil _)
  | case5 c1 c2 rest h tp ts hts ih =>
    intro hall hnd s hs
    have hall' : allWSisSpace (c2 :: rest) = true := allWSisSpace_tail _ _ hall
    have hnd' : noDoubleSpace (c2 :: rest) = true := noDoubleSpace_tail _ _ hnd
    have hgoal : splitSent (c1 :: c2 :: rest) = (c1 :: tp) :: ts := by
      simp [splitSent, h, hts]
    rw [hgoal] at hs
    simp only [List.tail_cons] at hs
    have := ih hall' hnd' s
    rw [hts] at this
    exact this hs

theorem cleaned_sentences (t : Text) (hc : cleanedB t = true) :
    ∀ s ∈ splitSent t, headNotWS s = true := by
  simp only [cleanedB, Bool.and_eq_true] at hc
  obtain ⟨⟨⟨hall, hnd⟩, hh⟩, _⟩ := hc
  intro s hs
  cases t with
  | nil =>
    simp [splitSent] at hs
    subst hs; rfl
  | cons c rest =>
    obtain ⟨p, ps, hps⟩ : ∃ p ps, splitSent (c :: rest) = p :: ps := by
      cases hsp : splitSent (c :: rest) with
      | nil => exact absurd hsp (splitSent_ne_nil _)
      | cons p ps => exact ⟨p, ps, rfl⟩
    rw [hps] at hs
    rcases List.mem_cons.mp hs with rfl | hmem
    · rcases splitSent_head_shape c rest with ⟨ts, hts⟩ | ⟨tl, ts, hts⟩
      · rw [hts] at hps
        cases hps; rfl
      · rw [hts] at hps
        injection hps with hp hps'
        subst hp
        have := headNotWS_of_clean c rest hall hh
        simpa [headNotWS] using this
    · have := splitSent_tail_headNotWS (c :: rest) hall hnd s
      rw [hps] at this
      exact this hmem

/-! ## The chunking loop -/

theorem chunkFold_eq (p : PDFProcessor) (C : Nat) :
    ∀ (ss : List Text) (chunks : List Text) (cur : Text),
      (let r := ss.foldl (chunkStep p C) (chunks, cur);
       if strip r.2 = [] then r.1 else r.1 ++ [strip r.2]) =
      chunks ++ chunkLoop p C cur ss := by
  intro ss
  induction ss with
  | nil =>
    intro chunks cur
    simp only [List.foldl_nil, chunkLoop]
    by_cases h : strip cur = []
    · simp [h]
    · simp [h]
  | cons s rest ih =>
    intro chunks cur
    simp only [List.foldl_cons, chunkLoop]
    by_cases h : C < p.count_tokens (cur ++ s ++ ['.', ' ']) ∧ cur ≠ []
    · rw [show chunkStep p C (chunks, cur) s = (chunks ++ [strip cur], s ++ ['.', ' ']) from by
        simp only [chunkStep]; rw [if_pos h]]
      rw [if_pos h, ih]
      simp
    · rw [show chunkStep p C (chunks, cur) s = (chunks, cur ++ s ++ ['.', ' ']) from by
        simp only [chunkStep]; rw [if_neg h]]
      rw [if_neg h, ih]

theorem chunk_text_eq (p : PDFProcessor) (text : Text) (C : Nat) :
    p.chunk_text text C = chunkLoop p C [] (splitSent text) := by
  have h := chunkFold_eq p C (splitSent text) [] []
  simpa [PDFProcessor.chunk_text] using h

theorem chunkLoop_shape (p : PDFProcessor) (C : Nat) :
    ∀ (ss : List Text) (cur : Text), (cur = [] ∨ ∃ v, cur = v ++ ['.', ' ']) →
      ∀ ch ∈ chunkLoop p C cur ss, ∃ w, ch = w ++ ['.'] := by
  intro ss
  induction ss with
  | nil =>
    intro cur hcur ch hch
    simp only [chunkLoop] at hch
    by_cases h : strip cur = []
    · simp [h] at hch
    · rw [if_neg h] at hch
      simp only [List.mem_singleton] at hch
      subst hch
      rcases hcur with rfl | ⟨v, rfl⟩
      · exact absurd rfl h
      · exact strip_ps_shape v
  | cons s rest ih =>
    intro cur hcur ch hch
    simp only [chunkLoop] at hch
    by_cases h : C < p.count_tokens (cur ++ s ++ ['.', ' ']) ∧ cur ≠ []
    · rw [if_pos h] at hch
      rcases List.mem_cons.mp hch with rfl | hmem
      · rcases hcur with rfl | ⟨v, rfl⟩
        · exact absurd rfl h.2
        · exact strip_ps_shape v
      · exact ih (s ++ ['.', ' ']) (Or.inr ⟨s, rfl⟩) ch hmem
    · rw [if_neg h] at hch
      exact ih _ (Or.inr ⟨cur ++ s, by simp⟩) ch hch

theorem chunkLoop_ne_nil (p : PDFProcessor) (C : Nat) :
    ∀ (ss : List Text) (v : Text), chunkLoop p C (v ++ ['.', ' ']) ss ≠ [] := by
  intro ss
  induction ss with
  | nil =>
    intro v
    obtain ⟨w1, hw1⟩ := strip_ps_shape v
    simp only [chunkLoop, hw1]
    have hne : w1 ++ ['.'] ≠ [] := by simp
    rw [if_neg hne]
    simp
  | cons s rest ih =>
    intro v
    simp only [chunkLoop]
    by_cases h : C < p.count_tokens (v ++ ['.', ' '] ++ s ++ ['.', ' ']) ∧ v ++ ['.', ' '] ≠ []
    · rw [if_pos h]; simp
    · rw [if_neg h]
      have hform : v ++ ['.', ' '] ++ s ++ ['.', ' '] = (v ++ ['.', ' '] ++ s) ++ ['.', ' '] := by
        simp
      rw [hform]
      exact ih (v ++ ['.', ' '] ++ s)

theorem joinSpace_cons_of_ne (a : Text) (l : List Text) (h : l ≠ []) :
    joinSpace (a :: l) = a ++ [' '] ++ joinSpace l := by
  cases l with
  | nil => exact absurd rfl h
  | cons b bs => rfl

theorem chunkLoop_join (p : PDFProcessor) (C : Nat) :
    ∀ (ss : List Text) (v : Text), headNotWS (v ++ ['.', ' ']) = true →
      (∀ s ∈ ss, headNotWS s = true) →
      joinSpace (chunkLoop p C (v ++ ['.', ' ']) ss) = v ++ sentTail ss ++ ['.'] := by
  intro ss
  induction ss with
  | nil =>
    intro v hv _
    have hs := strip_ps v hv
    simp only [chunkLoop, hs]
    have hne : v ++ ['.'] ≠ [] := by simp
    rw [if_neg hne]
    simp [joinSpace, sentTail]
  | cons s rest ih =>
    intro v hv hss
    simp only [chunkLoop]
    by_cases h : C < p.count_tokens (v ++ ['.', ' '] ++ s ++ ['.', ' ']) ∧ v ++ ['.', ' '] ≠ []
    · rw [if_pos h]
      have htail : chunkLoop p C (s ++ ['.', ' ']) rest ≠ [] := chunkLoop_ne_nil p C rest s
      rw [joinSpace_cons_of_ne _ _ htail, strip_ps v hv]
      have hhd : headNotWS (s ++ ['.', ' ']) = true :=
        headNotWS_append_ps s (hss s (List.mem_cons_self s rest))
      rw [ih s hhd fun x hx => hss x (List.mem_cons_of_mem s hx)]
      simp [sentTail]
    · rw [if_neg h]
      have hform : v ++ ['.', ' '] ++ s ++ ['.', ' '] = (v ++ ['.', ' '] ++ s) ++ ['.', ' '] := by
        simp
      rw [hform]
      have hv' : headNotWS ((v ++ ['.', ' '] ++ s) ++ ['.', ' ']) = true := by
        have hh := headNotWS_append (v ++ ['.', ' ']) (s ++ ['.', ' ']) (by simp) hv
        simpa using hh
      rw [ih (v ++ ['.', ' '] ++ s) hv' fun x hx => hss x (List.mem_cons_of_mem s hx)]
      simp [sentTail]

theorem p0_mono (s t : Text) (_h : t ≠ []) :
    p0.count_tokens s ≤ p0.count_tokens (s ++ t) := by
  simp [p0, PDFProcessor.count_tokens]

theorem chunkLoop_c1 (p : PDFProcessor) (C : Nat) (sentences : List Text)
    (hmono : ∀ (s t : Text), t ≠ [] → p.count_tokens s ≤ p.count_tokens (s ++ t)) :
    ∀ (ss : List Text) (cur : Text),
      (∀ s ∈ ss, headNotWS s = true ∧ s ∈ sentences) →
      (cur = [] ∨ (headNotWS cur = true ∧ ∃ v, cur = v ++ ['.', ' '] ∧
        (p.count_tokens cur ≤ C ∨ ∃ s, s ∈ sentences ∧ cur = s ++ ['.', ' ']))) →
      ∀ ch ∈ chunkLoop p C cur ss,
        p.count_tokens ch ≤ C ∨ ∃ s, s ∈ sentences ∧ ch = s ++ ['.'] := by
  have emit : ∀ cur : Text, (headNotWS cur = true ∧ ∃ v, cur = v ++ ['.', ' '] ∧
      (p.count_tokens cur ≤ C ∨ ∃ s, s ∈ sentences ∧ cur = s ++ ['.', ' '])) →
      p.count_tokens (strip cur) ≤ C ∨ ∃ s, s ∈ sentences ∧ strip cur = s ++ ['.'] := by
    rintro cur ⟨hhd, v, rfl, hbound⟩
    rcases hbound with hle | ⟨s, hs, heq⟩
    · left
      rw [strip_ps v hhd]
      calc p.count_tokens (v ++ ['.'])
          ≤ p.count_tokens (v ++ ['.'] ++ [' ']) := hmono _ _ (by simp)
        _ = p.count_tokens (v ++ ['.', ' ']) := by simp
        _ ≤ C := hle
    · right
      refine ⟨s, hs, ?_⟩
      rw [heq]
      exact strip_ps s (heq ▸ hhd)
  intro ss
  induction ss with
  | nil =>
    intro cur hss hcur ch hch
    simp only [chunkLoop] at hch
    by_cases h : strip cur = []
    · simp [h] at hch
    · rw [if_neg h] at hch
      simp only [List.mem_singleton] at hch
      subst hch
      rcases hcur with rfl | hcur2
      · exact absurd rfl h
      · exact emit cur hcur2
  | cons s rest ih =>
    intro cur hss hcur ch hch
    simp only [chunkLoop] at hch
    have hs_head := (hss s (List.mem_cons_self s rest)).1
    have hs_mem := (hss s (List.mem_cons_self s rest)).2
    have hss' : ∀ x ∈ rest, headNotWS x = true ∧ x ∈ sentences :=
      fun x hx => hss x (List.mem_cons_of_mem s hx)
    by_cases h : C < p.count_tokens (cur ++ s ++ ['.', ' ']) ∧ cur ≠ []
    · rw [if_pos h] at hch
      rcases List.mem_cons.mp hch with rfl | hmem
      · rcases hcur with rfl | hcur2
        · exact absurd rfl h.2
        · exact emit cur hcur2
      · exact ih _ hss'
          (Or.inr ⟨headNotWS_append_ps s hs_head, s, rfl, Or.inr ⟨s, hs_mem, rfl⟩⟩)
          ch hmem
    · rw [if_neg h] at hch
      refine ih _ hss' (Or.inr ⟨?_, cur ++ s, rfl, ?_⟩) ch hch
      · rcases hcur with rfl | ⟨hhd, v, hveq, _⟩
        · have hps := headNotWS_append_ps s hs_head
          simpa using hps
        · have hcne : cur ≠ [] := by rw [hveq]; simp
          have hh := headNotWS_append cur (s ++ ['.', ' ']) hcne hhd
          simpa using hh
      · rcases not_and_or.mp h with hA | hB
        · exact Or.inl (Nat.not_lt.mp hA)
        · have hcnil : cur = [] := not_not.mp hB
          subst hcnil
          exact Or.inr ⟨s, hs_mem, by simp⟩

/-- C1: for a cleaned text and any token ceiling, every chunk produced by
`chunk_text` has `count_tokens` at most the ceiling, unless it is a single
unsplit sentence (one element of `text.split('. ')`, with the final period
re-attached) whose own token count exceeds the ceiling.  The token counter is
abstract (tiktoken is external); the hypothesis `hmono` is the tokenizer
monotonicity property that the specification itself asserts. -/
theorem c1_chunk_token_bound (p : PDFProcessor) (text : Text) (C : Nat)
    (hmono : ∀ (s t : Text), t ≠ [] → p.count_tokens s ≤ p.count_tokens (s ++ t))
    (hclean : cleanedB text = true)
    (ch : Text) (hch : ch ∈ p.chunk_text text C) :
    p.count_tokens ch ≤ C ∨
      (C < p.count_tokens ch ∧ ∃ s, s ∈ splitSent text ∧ ch = s ++ ['.']) := by
  rw [chunk_text_eq] at hch
  have hmain := chunkLoop_c1 p C (splitSent text) hmono (splitSent text) []
    (fun s hs => ⟨cleaned_sentences text hclean s hs, hs⟩) (Or.inl rfl) ch hch
  rcases hmain with hle | hsent
  · exact Or.inl hle
  · rcases Nat.lt_or_ge C (p.count_tokens ch) with hlt | hge
    · exact Or.inr ⟨hlt, hsent⟩
    · exact Or.inl hge

/-- Witness for C1 at a concrete input: the single-sentence text
`"Hello world"` with ceiling 3 produces the oversized chunk
`"Hello world."`, which is one unsplit sentence plus the period. -/
theorem c1_witness :
    p0.count_tokens "Hello world.".toList ≤ 3 ∨
      (3 < p0.count_tokens "Hello world.".toList ∧
        ∃ s, s ∈ splitSent helloWorldT ∧ "Hello world.".toList = s ++ ['.']) :=
  c1_chunk_token_bound p0 helloWorldT 3 p0_mono (by decide) "Hello world.".toList
    (by decide)

/-- C2 fails as stated: chunking appends a period that was not in the input.
For the cleaned text `"Hello"` the full chunk list is the single chunk
`"Hello."`, so no concatenation of the chunks (with any separators) gives back
`"Hello"` — and the difference is a period, not whitespace. -/
theorem c2_counterexample :
    p0.chunk_text helloT 8000 = [helloT ++ ['.']] ∧ helloT ++ ['.'] ≠ helloT := by
  exact ⟨by decide, by decide⟩

/-- C2, amended: for every cleaned text and every ceiling, concatenating the
chunks with single-space separators reconstructs the original cleaned text
with exactly one period appended. -/
theorem c2_reconstruct_amended (p : PDFProcessor) (text : Text) (C : Nat)
    (hclean : cleanedB text = true) :
    joinSpace (p.chunk_text text C) = text ++ ['.'] := by
  rw [chunk_text_eq]
  obtain ⟨s0, rest, hsp⟩ : ∃ s0 rest, splitSent text = s0 :: rest := by
    cases hsp : splitSent text with
    | nil => exact absurd hsp (splitSent_ne_nil _)
    | cons s0 rest => exact ⟨s0, rest, rfl⟩
  rw [hsp]
  simp only [chunkLoop]
  have hcond : ¬(C < p.count_tokens (([] : Text) ++ s0 ++ ['.', ' ']) ∧ ([] : Text) ≠ []) := by
    simp
  rw [if_neg hcond]
  have hs0 : headNotWS s0 = true := by
    refine cleaned_sentences text hclean s0 ?_
    rw [hsp]; exact List.mem_cons_self _ _
  have hrest : ∀ s ∈ rest, headNotWS s = true := by
    intro s hs
    refine cleaned_sentences text hclean s ?_
    rw [hsp]; exact List.mem_cons_of_mem s0 hs
  rw [show ([] : Text) ++ s0 ++ ['.', ' '] = s0 ++ ['.', ' '] from by simp]
  rw [chunkLoop_join p C rest s0 (headNotWS_append_ps s0 hs0) hrest]
  have hjoin : s0 ++ sentTail rest = text := by
    have h1 := joinPS_splitSent text
    rw [hsp, joinPS_cons] at h1
    exact h1
  rw [← hjoin]

/-- Witness for C2 (amended) at a concrete input. -/
theorem c2_witness :
    joinSpace (p0.chunk_text helloWorldT 8000) = helloWorldT ++ ['.'] :=
  c2_reconstruct_amended p0 helloWorldT 8000 (by decide)

/-- C3 fails as stated: Python's `"".split('. ')` is `['']`, so the loop runs
once with the empty sentence, ends with `current_chunk = ". "`, and the final
`strip` leaves `"."`, which is appended.  `chunk_text("")` is `["."]`, not
`[]`. -/
theorem c3_counterexample : p0.chunk_text [] 8000 ≠ [] := by decide

/-- C3, amended: chunking the empty string returns the single chunk `"."`,
for every token counter and every token ceiling. -/
theorem c3_empty_amended (p : PDFProcessor) (C : Nat) : p.chunk_text [] C = [['.']] := by
  rw [chunk_text_eq]
  show chunkLoop p C [] [[]] = [['.']]
  simp only [chunkLoop]
  have hcond : ¬(C < p.count_tokens (([] : Text) ++ [] ++ ['.', ' ']) ∧ ([] : Text) ≠ []) := by
    simp
  rw [if_neg hcond]
  show chunkLoop p C ['.', ' '] [] = [['.']]
  simp only [chunkLoop]
  have hstrip : strip ['.', ' '] = ['.'] := by decide
  rw [hstrip]
  have hne : (['.'] : Text) ≠ [] := by simp
  rw [if_neg hne]

/-- C10: every chunk returned by `chunk_text`, on any input text and any
ceiling, is a non-empty string whose last character is a period (the loop
always closes chunks with `". "` and `strip` then removes only the trailing
space). -/
theorem c10_chunk_shape (p : PDFProcessor) (text : Text) (C : Nat)
    (ch : Text) (hch : ch ∈ p.chunk_text text C) :
    ch ≠ [] ∧ ch.getLast? = some '.' := by
  rw [chunk_text_eq] at hch
  obtain ⟨w, rfl⟩ := chunkLoop_shape p C (splitSent text) [] (Or.inl rfl) ch hch
  refine ⟨by simp, ?_⟩
  simp

/-- Witness for C10 at a concrete input. -/
theorem c10_witness :
    "Hello.".toList ≠ [] ∧ ("Hello.".toList : Text).getLast? = some '.' :=
  c10_chunk_shape p0 helloT 8000 "Hello.".toList (by decide)

/-! ## Summarizer lemmas -/

theorem listStartsWith_append (n : Text) :
    ∀ (h t : Text), listStartsWith n h = true → listStartsWith n (h ++ t) = true := by
  induction n with
  | nil => intro h t _; rfl
  | cons c cs ih =>
    intro h t hn
    cases h with
    | nil => simp [listStartsWith] at hn
    | cons d ds =>
      simp only [List.cons_append, listStartsWith, Bool.and_eq_true] at hn ⊢
      exact ⟨hn.1, ih ds t hn.2⟩

theorem containsSub_of_startsWith (n hay : Text) (h : listStartsWith n hay = true) :
    containsSub n hay = true := by
  cases hay with
  | nil => simpa [containsSub] using h
  | cons c rest => simp [containsSub, h]

theorem errTok_in_append (msg e : Text) (h : listStartsWith errTok msg = true) :
    containsSub errTok (msg ++ e) = true :=
  containsSub_of_startsWith _ _ (listStartsWith_append _ _ _ h)

/-- The record built for position `i` (0-based) by one iteration of the
`summarize_chunks` loop. -/
def loopEntry (S : PDFSummarizer) (summary_type : String) (i : Nat) (chunk : Text) :
    ChunkSummary :=
  match S.summarize_text chunk summary_type with
  | Except.ok summary => ⟨i + 1, summary, chunk.length, summary.length⟩
  | Except.error e => ⟨i + 1, "Error processing chunk: ".toList ++ e, chunk.length, 0⟩

theorem summarizeLoop_cons (S : PDFSummarizer) (st : String) (i : Nat)
    (chunk : Text) (rest : List Text) :
    summarizeLoop S st i (chunk :: rest) =
      loopEntry S st i chunk :: summarizeLoop S st (i + 1) rest := rfl

theorem summarizeLoop_length (S : PDFSummarizer) (st : String) :
    ∀ (chunks : List Text) (n : Nat), (summarizeLoop S st n chunks).length = chunks.length := by
  intro chunks
  induction chunks with
  | nil => intro n; rfl
  | cons c cs ih =>
    intro n
    simp only [summarizeLoop_cons, List.length_cons, ih (n + 1)]

theorem loopEntry_chunk_number (S : PDFSummarizer) (st : String) (i : Nat) (c : Text) :
    (loopEntry S st i c).chunk_number = i + 1 := by
  simp only [loopEntry]
  cases S.summarize_text c st <;> rfl

theorem loopEntry_original_length (S : PDFSummarizer) (st : String) (i : Nat) (c : Text) :
    (loopEntry S st i c).original_length = c.length := by
  simp only [loopEntry]
  cases S.summarize_text c st <;> rfl

theorem summarizeLoop_getD (S : PDFSummarizer) (st : String) :
    ∀ (chunks : List Text) (n i : Nat), i < chunks.length →
      (summarizeLoop S st n chunks).getD i dfltCS =
        loopEntry S st (n + i) (chunks.getD i []) := by
  intro chunks
  induction chunks with
  | nil => intro n i hi; simp at hi
  | cons c cs ih =>
    intro n i hi
    cases i with
    | zero => simp [summarizeLoop_cons]
    | succ j =>
      have hj : j < cs.length := by simpa using hi
      have harith : n + 1 + j = n + (j + 1) := by omega
      simp only [summarizeLoop_cons, List.getD_cons_succ]
      rw [ih (n + 1) j hj, harith]

/-- C4: if summarizing chunk `i` raises — either `summarize_text` itself
raises (its chain construction failed) or the underlying `chain.run` raised —
then `summarize_chunks` still returns one entry per input chunk and the entry
for chunk `i` has a summary containing the word `"Error"`; no exception
escapes the loop (the embedding is total). -/
theorem c4_error_isolated (S : PDFSummarizer) (chunks : List Text) (st : String)
    (i : Nat) (e : Text) (hi : i < chunks.length)
    (hraise : S.summarize_text (chunks.getD i []) st = Except.error e ∨
              S.runChain (effectiveType st) (chunks.getD i []) = Except.error e) :
    (S.summarize_chunks chunks st).individual_summaries.length = chunks.length ∧
    containsSub errTok
      (((S.summarize_chunks chunks st).individual_summaries.getD i dfltCS).summary) = true := by
  refine ⟨summarizeLoop_length S st chunks 0, ?_⟩
  show containsSub errTok (((summarizeLoop S st 0 chunks).getD i dfltCS).summary) = true
  rw [summarizeLoop_getD S st chunks 0 i hi]
  rcases hraise with herr | hrun
  · simp only [loopEntry, herr]
    exact errTok_in_append _ _ (by decide)
  · cases hmk : S.mkChain (effectiveType st) with
    | error e2 =>
      have htext : S.summarize_text (chunks.getD i []) st = Except.error e2 := by
        simp [PDFSummarizer.summarize_text, hmk]
      simp only [loopEntry, htext]
      exact errTok_in_append _ _ (by decide)
    | ok u =>
      have htext : S.summarize_text (chunks.getD i []) st =
          Except.ok ("Error generating summary: ".toList ++ e) := by
        simp only [PDFSummarizer.summarize_text]
        rw [hmk, hrun]
      simp only [loopEntry, htext]
      exact errTok_in_append _ _ (by decide)

/-- A summarizer whose chain construction always raises. -/
def S_ctorFail : PDFSummarizer :=
  ⟨fun _ => Except.error "chain construction failed".toList,
   fun _ _ => Except.ok "fine".toList,
   fun _ _ => Except.ok "fine".toList⟩

/-- Witness for C4 at a concrete input. -/
theorem c4_witness :
    (S_ctorFail.summarize_chunks ["hi".toList] "detailed").individual_summaries.length =
      (["hi".toList] : List Text).length ∧
    containsSub errTok
      (((S_ctorFail.summarize_chunks ["hi".toList] "detailed").individual_summaries.getD
        0 dfltCS).summary) = true :=
  c4_error_isolated S_ctorFail ["hi".toList] "detailed" 0
    "chain construction failed".toList (by decide) (Or.inl rfl)

/-- C5: a selector outside `{brief, detailed, bullet_points, executive}`
makes `summarize_text` behave exactly as with `'detailed'` — the fallback
happens before the prompt is looked up, so no error can arise from the
invalid selector. -/
theorem c5_invalid_selector_fallback (S : PDFSummarizer) (text : Text)
    (st : String) (h : st ∉ validSummaryTypes) :
    S.summarize_text text st = S.summarize_text text "detailed" := by
  simp only [PDFSummarizer.summarize_text, effectiveType]
  rw [if_neg h, if_pos (by decide)]

/-- A summarizer whose calls all succeed. -/
def S_ok : PDFSummarizer :=
  ⟨fun _ => Except.ok (),
   fun _ t => Except.ok ("summary of ".toList ++ t),
   fun _ _ => Except.ok "final".toList⟩

/-- Witness for C5 at a concrete input. -/
theorem c5_witness :
    S_ok.summarize_text "text".toList "bogus" = S_ok.summarize_text "text".toList "detailed" :=
  c5_invalid_selector_fallback S_ok "text".toList "bogus" (by decide)

/-- C6: if at least one per-chunk summary is successful (does not contain
`"Error"`) and the meta synthesis call raises, `combine_summaries` returns
the numbered-section concatenation of the successful summaries behind the
`"Combined Summary:"` header instead of raising. -/
theorem c6_meta_fallback (S : PDFSummarizer) (css : List ChunkSummary) (st : String)
    (e : Text) (hne : successfulSummaries css ≠ [])
    (hmeta : S.runMeta (sectionJoin (successfulSummaries css)) st = Except.error e) :
    S.combine_summaries css st =
      "Combined Summary:\n\n".toList ++ sectionJoin (successfulSummaries css) := by
  simp only [PDFSummarizer.combine_summaries]
  rw [if_neg hne, hmeta]

/-- A summarizer whose meta synthesis call always raises. -/
def S_metaFail : PDFSummarizer :=
  ⟨fun _ => Except.ok (),
   fun _ _ => Except.ok "fine".toList,
   fun _ _ => Except.error "rate limited".toList⟩

/-- A successful chunk-summary record. -/
def goodCS : ChunkSummary := ⟨1, "all good".toList, 8, 8⟩

/-- Witness for C6 at a concrete input. -/
theorem c6_witness :
    S_metaFail.combine_summaries [goodCS] "detailed" =
      "Combined Summary:\n\n".toList ++ sectionJoin (successfulSummaries [goodCS]) :=
  c6_meta_fallback S_metaFail [goodCS] "detailed" "rate limited".toList (by decide) rfl

/-- C8: `summarize_chunks` preserves the input order: there is one entry per
chunk, `total_chunks` is the number of chunks, and the `i`-th entry (0-based)
carries `chunk_number = i + 1` and the length of the `i`-th input chunk. -/
theorem c8_order_preserved (S : PDFSummarizer) (chunks : List Text) (st : String)
    (i : Nat) (hi : i < chunks.length) :
    (S.summarize_chunks chunks st).individual_summaries.length = chunks.length ∧
    (S.summarize_chunks chunks st).total_chunks = chunks.length ∧
    ((S.summarize_chunks chunks st).individual_summaries.getD i dfltCS).chunk_number = i + 1 ∧
    ((S.summarize_chunks chunks st).individual_summaries.getD i dfltCS).original_length =
      (chunks.getD i []).length := by
  refine ⟨summarizeLoop_length S st chunks 0, rfl, ?_, ?_⟩
  · show ((summarizeLoop S st 0 chunks).getD i dfltCS).chunk_number = i + 1
    rw [summarizeLoop_getD S st chunks 0 i hi, loopEntry_chunk_number]
    omega
  · show ((summarizeLoop S st 0 chunks).getD i dfltCS).original_length = (chunks.getD i []).length
    rw [summarizeLoop_getD S st chunks 0 i hi, loopEntry_original_length]

/-- Witness for C8 at a concrete input. -/
theorem c8_witness :
    (S_ok.summarize_chunks ["ab".toList, "c".toList] "brief").individual_summaries.length =
      (["ab".toList, "c".toList] : List Text).length ∧
    (S_ok.summarize_chunks ["ab".toList, "c".toList] "brief").total_chunks =
      (["ab".toList, "c".toList] : List Text).length ∧
    ((S_ok.summarize_chunks ["ab".toList, "c".toList] "brief").individual_summaries.getD
      1 dfltCS).chunk_number = 1 + 1 ∧
    ((S_ok.summarize_chunks ["ab".toList, "c".toList] "brief").individual_summaries.getD
      1 dfltCS).original_length = ((["ab".toList, "c".toList] : List Text).getD 1 []).length :=
  c8_order_preserved S_ok ["ab".toList, "c".toList] "brief" 1 (by decide)

/-! ## Extractor lemmas -/

theorem extractLoop_append (p2 : List (Except Text Text)) :
    ∀ (p1 : List (Except Text Text)) (n : Nat),
      extractLoop n (p1 ++ p2) = extractLoop n p1 ++ extractLoop (n + p1.length) p2 := by
  intro p1
  induction p1 with
  | nil => intro n; simp [extractLoop]
  | cons pg rest ih =>
    intro n
    have harith : n + 1 + rest.length = n + (rest.length + 1) := by omega
    cases pg with
    | ok t =>
      simp only [List.cons_append, extractLoop, List.length_cons, List.append_eq]
      rw [ih (n + 1), harith]
      simp [List.append_assoc]
    | error e =>
      simp only [List.cons_append, extractLoop, List.length_cons, List.append_eq]
      rw [ih (n + 1), harith]

/-- C9: if the document is readable and extracting one page raises, the
result is still a success whose text is exactly the contribution of the pages
before the failed one followed by the contribution of the pages after it
(with their original page numbering); the failed page contributes nothing and
the failure never aborts the document. -/
theorem c9_page_failure_skipped (p1 p2 : List (Except Text Text)) (e : Text) :
    PDFProcessor.extract_text_from_pdf (Except.ok (p1 ++ Except.error e :: p2)) =
      Except.ok (extractLoop 0 p1 ++ extractLoop (p1.length + 1) p2) := by
  simp only [PDFProcessor.extract_text_from_pdf]
  rw [extractLoop_append]
  simp [extractLoop]
